import Mathlib

/-
Verification of the asynchronous filesystem-operation engine
(`src/file_system.rs`): the `FileSystemItem` record, the directory lister
`list_directory`, the per-command executor arms of `watch_directory`, and the
polling dispatch loop.

The filesystem and the OS syscalls the executors invoke (`std::fs` and
`fs_extra`) are shallowly embedded: a filesystem is an association list from
absolute paths to nodes, a path is the list of its components, and each
syscall is a pure function returning `Option FS` (`none` = the syscall
failed). OS file names need not be valid UTF-8, so a path component is either
a UTF-8 string or an opaque non-UTF-8 name; `Rust`'s `OsStr::to_str` is then
`OsStr.toStr?`, and the `unwrap` calls of the source become explicit `panic`
outcomes of the lister.
-/

set_option autoImplicit false

namespace Happ

/-- A path component as the OS stores it: either a valid UTF-8 name or a
non-UTF-8 byte string (identified only by a code, which is all the engine can
observe of it before the name conversion panics). -/
inductive OsStr where
  | utf8 (s : String)
  | nonUtf8 (code : Nat)
deriving DecidableEq, Repr

/-- Rust `OsStr::to_str`: succeeds exactly on valid UTF-8 names. -/
def OsStr.toStr? : OsStr → Option String
  | .utf8 s => some s
  | .nonUtf8 _ => none

/-- True iff the component is a valid UTF-8 name. -/
def OsStr.isUtf8 : OsStr → Bool
  | .utf8 _ => true
  | .nonUtf8 _ => false

/-- An absolute path, as its list of components ([] is the filesystem root). -/
abbrev FsPath := List OsStr

/-- Rust `Path::parent`: drop the final component; `none` at the root. -/
def parent? (p : FsPath) : Option FsPath :=
  if p = [] then none else some p.dropLast

/-- Boolean prefix test on paths (used to delimit the subtree of a directory). -/
def isPfx : FsPath → FsPath → Bool
  | [], _ => true
  | _ :: _, [] => false
  | a :: as, b :: bs => decide (a = b) && isPfx as bs

/-- One filesystem object: a regular file with its byte content and
modification time, or a directory with its modification time. -/
inductive Node where
  | file (content : List Nat) (mtime : Nat)
  | dir (mtime : Nat)
deriving DecidableEq, Repr

/-- A filesystem state: the existing paths with their nodes, in enumeration
order (the order `read_dir` yields children). -/
abbrev FS := List (FsPath × Node)

/-- The node stored at a path (first entry with that key), if any. -/
def nodeAt : FS → FsPath → Option Node
  | [], _ => none
  | e :: rest, p => if e.1 = p then some e.2 else nodeAt rest p

/-- Rust `Path::is_dir` / `read_dir` openability: the path exists and is a
directory. -/
def isDirAt (fs : FS) (p : FsPath) : Bool :=
  match nodeAt fs p with
  | some (.dir _) => true
  | _ => false

/-- The immediate entries of directory `d`, in enumeration order. -/
def childrenOf (fs : FS) (d : FsPath) : List (FsPath × Node) :=
  fs.filter (fun e => decide (e.1 ≠ [] ∧ e.1.dropLast = d))

/-- Store node `n` at path `p`: replace the existing entry in place, or append
a fresh entry at the end of enumeration order. -/
def setNode : FS → FsPath → Node → FS
  | [], p, n => [(p, n)]
  | e :: rest, p, n => if e.1 = p then (p, n) :: rest else e :: setNode rest p n

/-- The `FileSystemItem` record of `src/file_system.rs`. -/
structure FileSystemItem where
  path : FsPath
  is_dir : Bool
  size : Nat
  modified : Nat
  is_hidden : Bool
deriving DecidableEq, Repr

/-- Rust `str::starts_with('.')` with a `char` pattern: true iff the first
character of the string is a period. -/
def startsWithDot (name : String) : Bool :=
  match name.data with
  | [] => false
  | c :: _ => decide (c = '.')

/-- The record `list_directory` builds for one entry, given the entry's path,
its metadata node, and its already-converted UTF-8 name: `size` is `0` for a
directory and the byte length otherwise, and `is_hidden` is whether the name
starts with a period (no platform conditional in the source). -/
def mkItem (p : FsPath) (n : Node) (name : String) : FileSystemItem :=
  { path := p
    is_dir := match n with | .dir _ => true | .file _ _ => false
    size := match n with | .dir _ => 0 | .file c _ => c.length
    modified := match n with | .dir m => m | .file _ m => m
    is_hidden := startsWithDot name }

/-- Outcome of one `list_directory` call: a complete item collection, an
`Err` returned through `?`, or a panic of the executing task (the `unwrap`
on the name conversion). -/
inductive LResult where
  | ok (items : List FileSystemItem)
  | err
  | panic
deriving DecidableEq, Repr

/-- The entry loop of `list_directory`. Per entry, in source order: the
`entry?` / `metadata()?` / `modified()?` reads (any IO error there is the
`metaErr` oracle, and aborts the whole call with `Err`), then
`file_name().unwrap().to_str().unwrap()` (panics on a non-UTF-8 name), then
the record is pushed. The first failing entry decides the outcome; no partial
collection survives. -/
def listEntries (metaErr : FsPath → Bool) : List (FsPath × Node) → LResult
  | [] => .ok []
  | e :: rest =>
    if metaErr e.1 then .err
    else
      match e.1.getLast? with
      | some os =>
        match os.toStr? with
        | some name =>
          match listEntries metaErr rest with
          | .ok items => .ok (mkItem e.1 e.2 name :: items)
          | r => r
        | none => .panic
      | none => .panic

/-- `list_directory` of `src/file_system.rs`: `read_dir` fails (`Err` through
`?`) unless `path` is an existing directory, else the entries are enumerated. -/
def list_directory (fs : FS) (metaErr : FsPath → Bool) (path : FsPath) : LResult :=
  if isDirAt fs path then listEntries metaErr (childrenOf fs path) else .err

/-- The metadata-error oracle for runs in which no transient IO error occurs. -/
def noMetaErr : FsPath → Bool := fun _ => false

/-- What one lister outcome pushes onto the result channel: the executors send
exactly the `Ok` collections (`if let Ok(items) = ... { tx.send(items) }`). -/
def pushed : LResult → List (List FileSystemItem)
  | .ok items => [items]
  | .err => []
  | .panic => []

/- ## Syscall models (`std::fs`, `fs_extra`) -/

/-- Rust `fs::File::create(p)`: fails when the parent directory is missing or
`p` is an existing directory; otherwise creates (or truncates to) an empty
file at `p`. -/
def createFile (fs : FS) (p : FsPath) : Option FS :=
  if p = [] then none
  else if isDirAt fs p.dropLast then
    match nodeAt fs p with
    | some (.dir _) => none
    | _ => some (setNode fs p (.file [] 0))
  else none

/-- Rust `fs::create_dir(p)`: fails when the parent is missing or `p` already
exists; otherwise creates an empty directory at `p`. -/
def createDir (fs : FS) (p : FsPath) : Option FS :=
  if p = [] then none
  else if isDirAt fs p.dropLast && (nodeAt fs p).isNone then
    some (fs ++ [(p, .dir 0)])
  else none

/-- Rust `fs::remove_file(p)`: fails unless `p` is an existing regular file. -/
def removeFile (fs : FS) (p : FsPath) : Option FS :=
  match nodeAt fs p with
  | some (.file _ _) => some (fs.filter (fun e => decide (e.1 ≠ p)))
  | _ => none

/-- Rust `fs::remove_dir_all(p)`: fails unless `p` is an existing directory;
removes `p` and its whole subtree. -/
def removeDirAll (fs : FS) (p : FsPath) : Option FS :=
  match nodeAt fs p with
  | some (.dir _) => some (fs.filter (fun e => !(isPfx p e.1)))
  | _ => none

/-- The subtree rooted at `src`, re-rooted at `dst` (used by rename and by the
recursive directory copy). -/
def rebasedSubtree (fs : FS) (src dst : FsPath) : FS :=
  (fs.filter (fun e => isPfx src e.1)).map (fun e => (dst ++ e.1.drop src.length, e.2))

/-- Move the subtree at `src` to `dst`, overwriting the entry previously at
`dst`. -/
def doRename (fs : FS) (src dst : FsPath) : FS :=
  fs.filter (fun e => !(isPfx src e.1) && decide (e.1 ≠ dst)) ++ rebasedSubtree fs src dst

/-- Rust `fs::rename(src, dst)` (same volume): fails when `src` is missing,
the parent of `dst` is missing, `dst` lies inside `src`, or the existing
target is incompatible (file over directory, directory over file or over a
non-empty directory); otherwise atomically moves `src` (with its subtree) to
`dst`, overwriting a compatible target. -/
def rename (fs : FS) (src dst : FsPath) : Option FS :=
  match nodeAt fs src with
  | none => none
  | some n =>
    if decide (dst ≠ []) && isDirAt fs dst.dropLast && !(isPfx src dst) then
      match n, nodeAt fs dst with
      | .file _ _, some (.dir _) => none
      | .dir _, some (.file _ _) => none
      | .dir _, some (.dir _) =>
        if (childrenOf fs dst).isEmpty then some (doRename fs src dst) else none
      | _, _ => some (doRename fs src dst)
    else none

/-- Rust `fs::copy(src, dst)`: fails unless `src` is a regular file, the
parent of `dst` exists, and `dst` is not an existing directory; otherwise
writes `src`'s content to `dst`, overwriting an existing file. -/
def fileCopy (fs : FS) (src dst : FsPath) : Option FS :=
  match nodeAt fs src with
  | some (.file c m) =>
    if decide (dst ≠ []) && isDirAt fs dst.dropLast then
      match nodeAt fs dst with
      | some (.dir _) => none
      | _ => some (setNode fs dst (.file c m))
    else none
  | _ => none

/-- `fs_extra::dir::copy(src, destDir, overwrite = true)`: copies directory
`src` INTO the existing directory `destDir`, i.e. the subtree of `src`
reappears under `destDir ++ [basename src]`, overwriting entries already
present there; fails when `src` is not a directory, `destDir` is not a
directory, or `destDir` lies inside `src`. -/
def dirCopy (fs : FS) (src destDir : FsPath) : Option FS :=
  match src.getLast? with
  | none => none
  | some name =>
    if isDirAt fs src && isDirAt fs destDir && !(isPfx src destDir) then
      let copies := rebasedSubtree fs src (destDir ++ [name])
      some (fs.filter (fun e => copies.all (fun c => decide (c.1 ≠ e.1))) ++ copies)
    else none

/- ## The executor arms of `watch_directory`

Each arm models the body of the task spawned for one `FileSystemEvent`
variant: it returns the filesystem after the side effect together with the
list of snapshots pushed onto the result channel (in order; `[]` when nothing
is sent). A failed syscall (`Option.none`) leaves the filesystem unchanged. -/

/-- `ListDirectory(path)` arm: no side effect; send the listing if it is `Ok`. -/
def listDirectoryArm (fs : FS) (mE : FsPath → Bool) (p : FsPath) :
    FS × List (List FileSystemItem) :=
  (fs, pushed (list_directory fs mE p))

/-- `CreateFile(path)` arm: only on creation success, list the parent (when it
exists) and send the `Ok` listing. -/
def createFileArm (fs : FS) (mE : FsPath → Bool) (p : FsPath) :
    FS × List (List FileSystemItem) :=
  match createFile fs p with
  | some fs2 =>
    match parent? p with
    | some par => (fs2, pushed (list_directory fs2 mE par))
    | none => (fs2, [])
  | none => (fs, [])

/-- `CreateFolder(path)` arm: same shape as `CreateFile`, over `create_dir`. -/
def createFolderArm (fs : FS) (mE : FsPath → Bool) (p : FsPath) :
    FS × List (List FileSystemItem) :=
  match createDir fs p with
  | some fs2 =>
    match parent? p with
    | some par => (fs2, pushed (list_directory fs2 mE par))
    | none => (fs2, [])
  | none => (fs, [])

/-- `DeleteItem(path)` arm: the removal result is discarded (`let _ = ...` in
the source), then the parent — captured before the removal — is listed and the
`Ok` listing sent, whether or not the removal succeeded. -/
def deleteItemArm (fs : FS) (mE : FsPath → Bool) (p : FsPath) :
    FS × List (List FileSystemItem) :=
  let par := parent? p
  let fs2 := if isDirAt fs p then (removeDirAll fs p).getD fs else (removeFile fs p).getD fs
  match par with
  | some parent => (fs2, pushed (list_directory fs2 mE parent))
  | none => (fs2, [])

/-- `RenameItem(from, to)` arm: only on rename success, list the parent of
`to` and send the `Ok` listing. -/
def renameItemArm (fs : FS) (mE : FsPath → Bool) (src dst : FsPath) :
    FS × List (List FileSystemItem) :=
  match rename fs src dst with
  | some fs2 =>
    match parent? dst with
    | some par => (fs2, pushed (list_directory fs2 mE par))
    | none => (fs2, [])
  | none => (fs, [])

/-- `CopyItem(from, to)` arm: a directory source goes through
`fs_extra::dir::copy(from, to.parent().unwrap(), overwrite)`, a file source
through `fs::copy(from, to)`; the copy result is discarded (`let _ = ...`),
then the parent of `to` is listed and the `Ok` listing sent regardless.
When `to` has no parent the directory branch panics at the `unwrap` before
copying anything and the file branch fails with nothing to list, so either
way the filesystem is unchanged and nothing is sent. -/
def copyItemArm (fs : FS) (mE : FsPath → Bool) (src dst : FsPath) :
    FS × List (List FileSystemItem) :=
  match parent? dst with
  | none => (fs, [])
  | some par =>
    let fs2 := if isDirAt fs src then (dirCopy fs src par).getD fs
               else (fileCopy fs src dst).getD fs
    (fs2, pushed (list_directory fs2 mE par))

/-- `MoveItem(from, to)` arm: the parent of `to` is captured up front, then
only on rename success is it listed and the `Ok` listing sent. -/
def moveItemArm (fs : FS) (mE : FsPath → Bool) (src dst : FsPath) :
    FS × List (List FileSystemItem) :=
  let par := parent? dst
  match rename fs src dst with
  | some fs2 =>
    match par with
    | some parent => (fs2, pushed (list_directory fs2 mE parent))
    | none => (fs2, [])
  | none => (fs, [])

/- ## The dispatch loop of `watch_directory` -/

/-- The command variants of `FileSystemEvent` (payloads as in the source). -/
inductive FileSystemEvent where
  | listDirectory (p : FsPath)
  | createFile (p : FsPath)
  | createFolder (p : FsPath)
  | deleteItem (p : FsPath)
  | renameItem (src dst : FsPath)
  | copyItem (src dst : FsPath)
  | moveItem (src dst : FsPath)
  | openFile (p : FsPath)
  | openTerminal (p : FsPath)
  | newWindow
deriving DecidableEq, Repr

/-- Outcome of one cadence tick of the loop: keep running (having launched at
most one executor and leaving the rest of the queue), or terminate. -/
inductive TickResult where
  | running (launched : Option FileSystemEvent) (remaining : List FileSystemEvent)
  | terminated
deriving DecidableEq, Repr

/-- One iteration of the `loop` in `watch_directory`: a single `try_recv`.
`Ok(event)` spawns that event's executor; `Empty` does nothing until the next
tick; `Disconnected` (queue drained and every sender dropped) breaks the loop.
The channel state is the pending queue plus whether the producer side is
permanently closed. -/
def tickOnce (pending : List FileSystemEvent) (closed : Bool) : TickResult :=
  match pending with
  | ev :: rest => .running (some ev) rest
  | [] => if closed then .terminated else .running none []

/-- The loop run for `n` ticks: `some remaining` if still running after `n`
ticks, `none` if it terminated on the way. While the producer side is open
new commands may be enqueued between ticks; the run is stated over a quiet
trace (no enqueues), which is the regime the termination clause of the spec
describes. -/
def runTicks : Nat → List FileSystemEvent → Bool → Option (List FileSystemEvent)
  | 0, pending, _ => some pending
  | n + 1, pending, closed =>
    match tickOnce pending closed with
    | .running _ rest => runTicks n rest closed
    | .terminated => none

/- ## Example states used by the concrete theorems -/

/-- An empty directory `D`. -/
def exDirD : FsPath := [OsStr.utf8 "d"]

/-- `D/a.txt`. -/
def exFileA : FsPath := exDirD ++ [OsStr.utf8 "a.txt"]

/-- The filesystem holding just the empty directory `D`. -/
def exFsEmptyD : FS := [(exDirD, Node.dir 0)]

/-- A filesystem with directories `/a`, `/b`, a non-empty directory `/a/foo`
holding the file `/a/foo/x`, used for the copy claims. -/
def exFsCopy : FS :=
  [([OsStr.utf8 "a"], Node.dir 0),
   ([OsStr.utf8 "a", OsStr.utf8 "foo"], Node.dir 0),
   ([OsStr.utf8 "a", OsStr.utf8 "foo", OsStr.utf8 "x"], Node.file [7] 0),
   ([OsStr.utf8 "b"], Node.dir 0)]

/-- A directory `D` holding one file `D/a`, used for the failing delete. -/
def exFsDel : FS := [(exDirD, Node.dir 0), (exDirD ++ [OsStr.utf8 "a"], Node.file [] 0)]

/-- `D/z`, a path that does not exist in `exFsDel`. -/
def exMissingZ : FsPath := exDirD ++ [OsStr.utf8 "z"]

/-- A directory `D` holding one entry whose name is not valid UTF-8. -/
def exFsBadName : FS := [(exDirD, Node.dir 0), (exDirD ++ [OsStr.nonUtf8 0], Node.file [] 0)]

/-- A directory `D` holding the files `D/.config` and `D/config`. -/
def exFsHidden : FS :=
  [(exDirD, Node.dir 0),
   (exDirD ++ [OsStr.utf8 ".config"], Node.file [] 0),
   (exDirD ++ [OsStr.utf8 "config"], Node.file [] 0)]

/-- A directory `D` holding a file and a subdirectory, used as a generic
listing example. -/
def exFsMixed : FS :=
  [(exDirD, Node.dir 0),
   (exDirD ++ [OsStr.utf8 "a"], Node.file [3, 4] 9),
   (exDirD ++ [OsStr.utf8 "sub"], Node.dir 5)]

/-- Every path of the filesystem has only valid UTF-8 components. -/
def allUtf8 (fs : FS) : Bool := fs.all (fun e => e.1.all OsStr.isUtf8)

/-- The entry names of directory `d` (the final components of its immediate
entries) are all valid UTF-8 — the per-directory condition under which one
`list_directory` call reaches no failing name `unwrap`. -/
def dirNamesUtf8 (fs : FS) (d : FsPath) : Bool :=
  (childrenOf fs d).all (fun e =>
    match e.1.getLast? with
    | some os => os.isUtf8
    | none => false)

/-- A filesystem holding a non-UTF-8 name inside `D` and, elsewhere, the clean
directory `/clean` whose own entry names are all valid UTF-8. -/
def exFsMixedNames : FS :=
  [(exDirD, Node.dir 0),
   (exDirD ++ [OsStr.nonUtf8 0], Node.file [] 0),
   ([OsStr.utf8 "clean"], Node.dir 0),
   ([OsStr.utf8 "clean", OsStr.utf8 "ok"], Node.file [1] 2)]

/- ## Helper lemmas -/

theorem nodeAt_append (l1 l2 : FS) (k : FsPath) :
    nodeAt (l1 ++ l2) k =
      match nodeAt l1 k with
      | some n => some n
      | none => nodeAt l2 k := by
  induction l1 with
  | nil => simp [nodeAt]
  | cons e rest ih =>
    simp only [List.cons_append, nodeAt]
    by_cases h : e.1 = k <;> simp [h, ih]

theorem nodeAt_eq_none_of_all_ne {l : FS} {k : FsPath}
    (h : ∀ e ∈ l, e.1 ≠ k) : nodeAt l k = none := by
  induction l with
  | nil => rfl
  | cons e rest ih =>
    simp only [nodeAt]
    have he : e.1 ≠ k := h e (List.mem_cons_self e rest)
    simp only [he, if_false]
    exact ih (fun e' he' => h e' (List.mem_cons_of_mem e he'))

theorem nodeAt_filter_of_keep {l : FS} {p : FsPath × Node → Bool} {k : FsPath}
    (h : ∀ e ∈ l, e.1 = k → p e = true) : nodeAt (l.filter p) k = nodeAt l k := by
  induction l with
  | nil => rfl
  | cons e rest ih =>
    have ih' := ih (fun e' he' hk => h e' (List.mem_cons_of_mem e he') hk)
    by_cases hk : e.1 = k
    · have hp : p e = true := h e (List.mem_cons_self e rest) hk
      simp [List.filter_cons, hp, nodeAt, hk]
    · by_cases hp : p e = true
      · simp [List.filter_cons, hp, nodeAt, hk, ih']
      · simp only [List.filter_cons, Bool.not_eq_true] at hp ⊢
        simp [hp, nodeAt, hk, ih']

theorem isPfx_append (a t : FsPath) : isPfx a (a ++ t) = true := by
  induction a with
  | nil => rfl
  | cons x xs ih => simp [isPfx, ih]

theorem eq_append_drop_of_isPfx {a b : FsPath} (h : isPfx a b = true) :
    b = a ++ b.drop a.length := by
  induction a generalizing b with
  | nil => simp
  | cons x xs ih =>
    cases b with
    | nil => simp [isPfx] at h
    | cons y ys =>
      simp only [isPfx, Bool.and_eq_true, decide_eq_true_eq] at h
      obtain ⟨hxy, hrest⟩ := h
      simpa [hxy] using ih hrest

theorem isPfx_dichotomy {a b s t : FsPath} (h : a ++ s = b ++ t) :
    isPfx a b = true ∨ isPfx b a = true := by
  induction a generalizing b with
  | nil => left; rfl
  | cons x xs ih =>
    cases b with
    | nil => right; rfl
    | cons y ys =>
      simp only [List.cons_append, List.cons.injEq] at h
      obtain ⟨hxy, hrest⟩ := h
      rcases ih hrest with h1 | h1
      · left; simp [isPfx, hxy, h1]
      · right; simp [isPfx, hxy, h1]

theorem isPfx_of_append_eq_snoc {a b : FsPath} {x : OsStr} {t : FsPath}
    (ht : t ≠ []) (h : a ++ t = b ++ [x]) : isPfx a b = true := by
  have h2 : a ++ (t.dropLast ++ [t.getLast ht]) = b ++ [x] := by
    rw [List.dropLast_append_getLast ht]; exact h
  rw [← List.append_assoc] at h2
  have := List.append_inj' h2 (by simp)
  rcases this with ⟨h3, _⟩
  rw [← h3]; exact isPfx_append a t.dropLast

theorem isPfx_of_isPfx_snoc {a b : FsPath} {x : OsStr}
    (h : isPfx a (b ++ [x]) = true) (hne : a ≠ b ++ [x]) : isPfx a b = true := by
  have hb := eq_append_drop_of_isPfx h
  by_cases ht : (b ++ [x]).drop a.length = []
  · rw [ht, List.append_nil] at hb
    exact absurd hb.symm hne
  · exact isPfx_of_append_eq_snoc ht hb.symm

theorem snoc_append_ne_self (par : FsPath) (x : OsStr) (t : FsPath) :
    par ++ [x] ++ t ≠ par := by
  intro h
  have hl := congrArg List.length h
  simp only [List.length_append, List.length_cons, List.length_nil] at hl
  omega

theorem listEntries_ok_mem {mE : FsPath → Bool} :
    ∀ {es : List (FsPath × Node)} {items : List FileSystemItem},
      listEntries mE es = LResult.ok items →
      ∀ it ∈ items,
        ∃ e, e ∈ es ∧ ∃ s, e.1.getLast? = some (OsStr.utf8 s) ∧ it = mkItem e.1 e.2 s := by
  intro es
  induction es with
  | nil =>
    intro items h it hit
    simp only [listEntries, LResult.ok.injEq] at h
    subst h
    simp at hit
  | cons e rest ih =>
    intro items h it hit
    simp only [listEntries] at h
    by_cases hm : mE e.1 = true
    · simp [hm] at h
    · simp only [hm, if_false, Bool.false_eq_true] at h
      cases hl : e.1.getLast? with
      | none => rw [hl] at h; cases h
      | some os =>
        rw [hl] at h
        cases os with
        | nonUtf8 c => simp [OsStr.toStr?] at h
        | utf8 s =>
          simp only [OsStr.toStr?] at h
          cases hrest : listEntries mE rest with
          | ok items' =>
            rw [hrest] at h
            cases h
            rcases List.mem_cons.mp hit with hit1 | hit2
            · exact ⟨e, List.mem_cons_self e rest, s, hl, hit1⟩
            · obtain ⟨e', he', hs⟩ := ih hrest it hit2
              exact ⟨e', List.mem_cons_of_mem e he', hs⟩
          | err => rw [hrest] at h; cases h
          | panic => rw [hrest] at h; cases h

theorem listEntries_ok_paths {mE : FsPath → Bool} :
    ∀ {es : List (FsPath × Node)} {items : List FileSystemItem},
      listEntries mE es = LResult.ok items →
      items.map FileSystemItem.path = es.map Prod.fst := by
  intro es
  induction es with
  | nil =>
    intro items h
    simp only [listEntries, LResult.ok.injEq] at h
    subst h; rfl
  | cons e rest ih =>
    intro items h
    simp only [listEntries] at h
    by_cases hm : mE e.1 = true
    · simp [hm] at h
    · simp only [hm, if_false, Bool.false_eq_true] at h
      cases hl : e.1.getLast? with
      | none => rw [hl] at h; cases h
      | some os =>
        rw [hl] at h
        cases os with
        | nonUtf8 c => simp [OsStr.toStr?] at h
        | utf8 s =>
          simp only [OsStr.toStr?] at h
          cases hrest : listEntries mE rest with
          | ok items' =>
            rw [hrest] at h
            cases h
            simp [mkItem, ih hrest]
          | err => rw [hrest] at h; cases h
          | panic => rw [hrest] at h; cases h

theorem listEntries_ne_panic {mE : FsPath → Bool} :
    ∀ {es : List (FsPath × Node)},
      (∀ e ∈ es, ∃ s, e.1.getLast? = some (OsStr.utf8 s)) →
      listEntries mE es ≠ LResult.panic := by
  intro es
  induction es with
  | nil => intro _ h; cases h
  | cons e rest ih =>
    intro hall h
    simp only [listEntries] at h
    by_cases hm : mE e.1 = true
    · simp [hm] at h
    · simp only [hm, if_false, Bool.false_eq_true] at h
      obtain ⟨s, hs⟩ := hall e (List.mem_cons_self e rest)
      rw [hs] at h
      simp only [OsStr.toStr?] at h
      cases hrest : listEntries mE rest with
      | ok items' => rw [hrest] at h; cases h
      | err => rw [hrest] at h; cases h
      | panic =>
        exact ih (fun e' he' => hall e' (List.mem_cons_of_mem e he')) hrest

theorem listEntries_ok_exists :
    ∀ {es : List (FsPath × Node)},
      (∀ e ∈ es, ∃ s, e.1.getLast? = some (OsStr.utf8 s)) →
      ∃ items, listEntries noMetaErr es = LResult.ok items := by
  intro es
  induction es with
  | nil => intro _; exact ⟨[], rfl⟩
  | cons e rest ih =>
    intro hall
    obtain ⟨s, hs⟩ := hall e (List.mem_cons_self e rest)
    obtain ⟨items', hrest⟩ := ih (fun e' he' => hall e' (List.mem_cons_of_mem e he'))
    refine ⟨mkItem e.1 e.2 s :: items', ?_⟩
    simp only [listEntries, noMetaErr, if_false, Bool.false_eq_true, hs, OsStr.toStr?, hrest]

theorem list_directory_ok_mem {fs : FS} {mE : FsPath → Bool} {d : FsPath}
    {items : List FileSystemItem} (h : list_directory fs mE d = LResult.ok items) :
    ∀ it ∈ items,
      ∃ e, e ∈ childrenOf fs d ∧ ∃ s, e.1.getLast? = some (OsStr.utf8 s) ∧
        it = mkItem e.1 e.2 s := by
  unfold list_directory at h
  by_cases hd : isDirAt fs d = true
  · rw [if_pos hd] at h
    exact listEntries_ok_mem h
  · rw [if_neg hd] at h
    cases h

theorem mem_of_nodeAt {l : FS} {k : FsPath} {n : Node} (h : nodeAt l k = some n) :
    (k, n) ∈ l := by
  induction l with
  | nil => cases h
  | cons e rest ih =>
    simp only [nodeAt] at h
    by_cases hk : e.1 = k
    · rw [if_pos hk] at h
      have he2 : e.2 = n := by injection h
      have : e = (k, n) := by
        cases e; simp_all
      rw [← this]
      exact List.mem_cons_self e rest
    · rw [if_neg hk] at h
      exact List.mem_cons_of_mem e (ih h)

theorem nodeAt_rebasedSubtree (fs : FS) (src dst s : FsPath) :
    nodeAt (rebasedSubtree fs src dst) (dst ++ s) = nodeAt fs (src ++ s) := by
  induction fs with
  | nil => rfl
  | cons e rest ih =>
    simp only [rebasedSubtree] at ih ⊢
    by_cases hp : isPfx src e.1 = true
    · have he : e.1 = src ++ e.1.drop src.length := eq_append_drop_of_isPfx hp
      simp only [List.filter_cons, hp, if_true]
      simp only [List.map_cons, nodeAt]
      by_cases hk : e.1.drop src.length = s
      · have h1 : dst ++ e.1.drop src.length = dst ++ s := by rw [hk]
        have h2 : e.1 = src ++ s := by rw [he, hk]
        simp [h1, h2]
      · have h1 : ¬(dst ++ e.1.drop src.length = dst ++ s) := by
          intro hc; exact hk (List.append_cancel_left hc)
        have h2 : ¬(e.1 = src ++ s) := by
          intro hc
          exact hk (List.append_cancel_left (he.symm.trans hc))
        simp [h1, h2, ih]
    · have h2 : ¬(e.1 = src ++ s) := by
        intro hc
        rw [hc] at hp
        exact hp (isPfx_append src s)
      simp only [List.filter_cons, Bool.not_eq_true] at hp ⊢
      simp only [hp, Bool.false_eq_true, if_false]
      simp only [nodeAt, h2, if_false]
      exact ih

theorem mem_rebasedSubtree {fs : FS} {src dst : FsPath} {c : FsPath × Node}
    (hc : c ∈ rebasedSubtree fs src dst) :
    ∃ e, e ∈ fs ∧ c.1 = dst ++ e.1.drop src.length ∧ c.2 = e.2 := by
  unfold rebasedSubtree at hc
  obtain ⟨e, he, hce⟩ := List.mem_map.mp hc
  refine ⟨e, (List.mem_filter.mp he).1, ?_, ?_⟩
  · rw [← hce]
  · rw [← hce]

theorem dirCopy_spec {fs : FS} {src par : FsPath} {name : OsStr} {fs2 : FS}
    (hlast : src.getLast? = some name)
    (h1 : isDirAt fs src = true) (h3 : isDirAt fs par = true)
    (h5 : isPfx src par = false)
    (h6 : isPfx (par ++ [name]) src = false)
    (h7 : src ≠ par ++ [name])
    (hcopy : dirCopy fs src par = some fs2) :
    (∀ s n, nodeAt fs (src ++ s) = some n → nodeAt fs2 (par ++ [name] ++ s) = some n)
    ∧ (∀ q, nodeAt fs2 (src ++ q) = nodeAt fs (src ++ q))
    ∧ childrenOf fs2 src = childrenOf fs src
    ∧ nodeAt fs2 par = nodeAt fs par
    ∧ (∀ e ∈ fs2, e ∈ fs ∨ ∃ e', e' ∈ fs ∧ e.1 = par ++ [name] ++ e'.1.drop src.length) := by
  have hA : isPfx src (par ++ [name]) = false := by
    by_contra hc
    rw [Bool.not_eq_false] at hc
    exact absurd (isPfx_of_isPfx_snoc hc h7) (by simp [h5])
  set dst := par ++ [name] with hdst
  set copies := rebasedSubtree fs src dst with hcopies
  have hfs2 : fs2 = fs.filter (fun e => copies.all (fun c => decide (c.1 ≠ e.1))) ++ copies := by
    unfold dirCopy at hcopy
    rw [hlast] at hcopy
    simp only [h1, h3, h5, Bool.not_false, Bool.and_self, Bool.and_true, if_true] at hcopy
    injection hcopy with hcopy
    exact hcopy.symm
  -- keys of the copied subtree never collide with paths outside `dst`
  have hkey : ∀ c ∈ copies, ∃ t, c.1 = dst ++ t := by
    intro c hc
    obtain ⟨e, _, hck, _⟩ := mem_rebasedSubtree hc
    exact ⟨e.1.drop src.length, hck⟩
  have hsrc_ne : ∀ (q : FsPath) (c : FsPath × Node), c ∈ copies → c.1 ≠ src ++ q := by
    intro q c hc hck
    obtain ⟨t, hct⟩ := hkey c hc
    rw [hct] at hck
    rcases isPfx_dichotomy hck with hd | hd
    · rw [hdst] at hd
      exact absurd hd (by simp [h6])
    · exact absurd hd (by simp [hA])
  constructor
  · -- every entry of the source subtree reappears under dst
    intro s n hn
    rw [hfs2, nodeAt_append]
    have hcop : nodeAt copies (dst ++ s) = some n := by
      rw [hcopies, nodeAt_rebasedSubtree]; exact hn
    have hmem : (dst ++ s, n) ∈ copies := mem_of_nodeAt hcop
    have hkept : nodeAt (fs.filter (fun e => copies.all (fun c => decide (c.1 ≠ e.1)))) (dst ++ s) = none := by
      apply nodeAt_eq_none_of_all_ne
      intro e he
      have hp := (List.mem_filter.mp he).2
      have := (List.all_eq_true.mp hp) (dst ++ s, n) hmem
      simp only [decide_eq_true_eq] at this
      exact fun hk => this hk.symm
    rw [hkept]
    exact hcop
  refine ⟨?_, ?_, ?_, ?_⟩
  · -- the source subtree is untouched
    intro q
    rw [hfs2, nodeAt_append]
    have hkept : nodeAt (fs.filter (fun e => copies.all (fun c => decide (c.1 ≠ e.1)))) (src ++ q) = nodeAt fs (src ++ q) := by
      apply nodeAt_filter_of_keep
      intro e _ hk
      apply List.all_eq_true.mpr
      intro c hc
      simp only [decide_eq_true_eq]
      rw [hk]
      exact hsrc_ne q c hc
    rw [hkept]
    cases hfk : nodeAt fs (src ++ q) with
    | some n => rfl
    | none =>
      apply nodeAt_eq_none_of_all_ne
      intro c hc
      exact hsrc_ne q c hc
  · -- the source directory has exactly its old children
    rw [hfs2]
    unfold childrenOf
    rw [List.filter_append]
    have hcop : (copies.filter (fun e => decide (e.1 ≠ [] ∧ e.1.dropLast = src))) = [] := by
      apply List.filter_eq_nil_iff.mpr
      intro c hc
      simp only [decide_eq_true_eq, not_and]
      intro hne hdl
      have hcsrc : c.1 = src ++ [c.1.getLast hne] := by
        conv_lhs => rw [← List.dropLast_append_getLast hne]
        exact congrArg (fun l => l ++ [c.1.getLast hne]) hdl
      exact hsrc_ne [c.1.getLast hne] c hc hcsrc
    rw [hcop, List.append_nil, List.filter_filter]
    apply List.filter_congr
    intro e _
    by_cases hq : (e.1 ≠ [] ∧ e.1.dropLast = src)
    · have he1 : e.1 = src ++ [e.1.getLast hq.1] := by
        conv_lhs => rw [← List.dropLast_append_getLast hq.1]
        exact congrArg (fun l => l ++ [e.1.getLast hq.1]) hq.2
      have : copies.all (fun c => decide (c.1 ≠ e.1)) = true := by
        apply List.all_eq_true.mpr
        intro c hc
        simp only [decide_eq_true_eq]
        rw [he1]
        exact hsrc_ne [e.1.getLast hq.1] c hc
      simp only [hq, this]
      simp
    · simp [hq]
  · -- the destination's parent directory node is untouched
    rw [hfs2, nodeAt_append]
    have hpar_ne : ∀ c ∈ copies, c.1 ≠ par := by
      intro c hc
      obtain ⟨t, hct⟩ := hkey c hc
      rw [hct, hdst]
      exact snoc_append_ne_self par name t
    have hkept : nodeAt (fs.filter (fun e => copies.all (fun c => decide (c.1 ≠ e.1)))) par = nodeAt fs par := by
      apply nodeAt_filter_of_keep
      intro e _ hk
      apply List.all_eq_true.mpr
      intro c hc
      simp only [decide_eq_true_eq]
      rw [hk]
      exact hpar_ne c hc
    rw [hkept]
    cases hfk : nodeAt fs par with
    | some n => rfl
    | none => exact nodeAt_eq_none_of_all_ne hpar_ne
  · -- every entry of the result is an old entry or a rebased copy
    intro e he
    rw [hfs2] at he
    rcases List.mem_append.mp he with hl | hr
    · exact Or.inl (List.mem_filter.mp hl).1
    · obtain ⟨e', he', hk, _⟩ := mem_rebasedSubtree hr
      exact Or.inr ⟨e', he', by rw [hk, hdst, List.append_assoc]⟩

theorem allUtf8_mem {fs : FS} (h : allUtf8 fs = true) {e : FsPath × Node} (he : e ∈ fs) :
    e.1.all OsStr.isUtf8 = true :=
  (List.all_eq_true.mp h) e he

theorem utf8_getLast {p : FsPath} (hp : p ≠ []) (h : p.all OsStr.isUtf8 = true) :
    ∃ s, p.getLast? = some (OsStr.utf8 s) := by
  have hg := List.getLast?_eq_getLast p hp
  have hm := List.getLast_mem hp
  have hu := (List.all_eq_true.mp h) _ hm
  cases hlast : p.getLast hp with
  | utf8 s => exact ⟨s, by rw [hg, hlast]⟩
  | nonUtf8 c => rw [hlast] at hu; simp [OsStr.isUtf8] at hu

theorem children_utf8 {fs : FS} (h : ∀ e ∈ fs, e.1.all OsStr.isUtf8 = true) (d : FsPath) :
    ∀ e ∈ childrenOf fs d, ∃ s, e.1.getLast? = some (OsStr.utf8 s) := by
  intro e he
  have hmf := List.mem_filter.mp he
  have hcond := hmf.2
  simp only [decide_eq_true_eq] at hcond
  exact utf8_getLast hcond.1 (h e hmf.1)

theorem list_directory_ok_of_utf8 {fs : FS} {d : FsPath}
    (hd : isDirAt fs d = true) (h : ∀ e ∈ fs, e.1.all OsStr.isUtf8 = true) :
    ∃ items, list_directory fs noMetaErr d = LResult.ok items := by
  unfold list_directory
  rw [if_pos hd]
  exact listEntries_ok_exists (children_utf8 h d)

theorem list_directory_ne_panic_of_utf8 {fs : FS} {mE : FsPath → Bool} {d : FsPath}
    (h : ∀ e ∈ fs, e.1.all OsStr.isUtf8 = true) :
    list_directory fs mE d ≠ LResult.panic := by
  unfold list_directory
  by_cases hd : isDirAt fs d = true
  · rw [if_pos hd]; exact listEntries_ne_panic (children_utf8 h d)
  · rw [if_neg hd]; intro hc; cases hc

theorem isDirAt_nodeAt {fs : FS} {p : FsPath} (h : isDirAt fs p = true) :
    ∃ m, nodeAt fs p = some (Node.dir m) := by
  unfold isDirAt at h
  cases hn : nodeAt fs p with
  | none => rw [hn] at h; cases h
  | some n =>
    cases n with
    | file c m => rw [hn] at h; cases h
    | dir m => exact ⟨m, rfl⟩

theorem nodeAt_setNode (fs : FS) (p : FsPath) (n : Node) :
    nodeAt (setNode fs p n) p = some n := by
  induction fs with
  | nil => simp [setNode, nodeAt]
  | cons e rest ih =>
    simp only [setNode]
    by_cases h : e.1 = p
    · simp [h, nodeAt]
    · simp [h, nodeAt, ih]

theorem nodeAt_setNode_ne (fs : FS) (p q : FsPath) (n : Node) (h : q ≠ p) :
    nodeAt (setNode fs p n) q = nodeAt fs q := by
  have hpq : ¬(p = q) := fun hc => h hc.symm
  induction fs with
  | nil => simp [setNode, nodeAt, hpq]
  | cons e rest ih =>
    simp only [setNode]
    by_cases he : e.1 = p
    · rw [if_pos he]
      have h2 : ¬(e.1 = q) := by rw [he]; exact hpq
      simp [nodeAt, hpq, h2]
    · rw [if_neg he]
      by_cases hq : e.1 = q
      · simp [nodeAt, hq]
      · simp [nodeAt, hq, ih]

/- ## The claims -/

/-- C3 — confirmed. Every Item Record produced by the Directory Lister (hence
every record of every snapshot the executors publish, which are exactly the
`Ok` lister results) has `size = 0` whenever `is_directory` is true. -/
theorem C3_directory_size_zero (fs : FS) (mE : FsPath → Bool) (d : FsPath)
    (items : List FileSystemItem) (h : list_directory fs mE d = LResult.ok items) :
    ∀ it ∈ items, it.is_dir = true → it.size = 0 := by
  intro it hit hdir
  obtain ⟨e, _, s, _, heq⟩ := list_directory_ok_mem h it hit
  obtain ⟨ep, en⟩ := e
  subst heq
  cases en with
  | dir m => simp [mkItem]
  | file c m => simp [mkItem] at hdir

/-- Witness for C3 on a concrete directory holding a file and a
subdirectory. -/
theorem C3_witness :
    list_directory exFsMixed noMetaErr exDirD =
      LResult.ok [⟨exDirD ++ [OsStr.utf8 "a"], false, 2, 9, false⟩,
                  ⟨exDirD ++ [OsStr.utf8 "sub"], true, 0, 5, false⟩]
    ∧ (⟨exDirD ++ [OsStr.utf8 "sub"], true, 0, 5, false⟩ : FileSystemItem).size = 0 :=
  ⟨by decide,
   C3_directory_size_zero exFsMixed noMetaErr exDirD
     [⟨exDirD ++ [OsStr.utf8 "a"], false, 2, 9, false⟩,
      ⟨exDirD ++ [OsStr.utf8 "sub"], true, 0, 5, false⟩]
     (by decide) _ (by decide) (by decide)⟩

/-- C4 — confirmed. Every Item Record produced by the lister carries a valid
UTF-8 final name component, and `is_hidden` equals the leading-period test on
that name (the source line has no platform conditional, and the model has no
platform parameter); concretely, `.config` is listed hidden and `config` is
listed non-hidden. -/
theorem C4_hidden_iff_leading_dot :
    (∀ fs mE d items, list_directory fs mE d = LResult.ok items →
      ∀ it ∈ items, ∃ s, it.path.getLast? = some (OsStr.utf8 s) ∧
        it.is_hidden = startsWithDot s)
    ∧ list_directory exFsHidden noMetaErr exDirD =
        LResult.ok [⟨exDirD ++ [OsStr.utf8 ".config"], false, 0, 0, true⟩,
                    ⟨exDirD ++ [OsStr.utf8 "config"], false, 0, 0, false⟩] := by
  constructor
  · intro fs mE d items h it hit
    obtain ⟨e, _, s, hlast, heq⟩ := list_directory_ok_mem h it hit
    subst heq
    exact ⟨s, hlast, rfl⟩
  · decide

/-- Witness for C4 at the `.config` record of the concrete listing. -/
theorem C4_witness :
    ∃ s, (⟨exDirD ++ [OsStr.utf8 ".config"], false, 0, 0, true⟩ :
        FileSystemItem).path.getLast? = some (OsStr.utf8 s) ∧
      (⟨exDirD ++ [OsStr.utf8 ".config"], false, 0, 0, true⟩ :
        FileSystemItem).is_hidden = startsWithDot s :=
  C4_hidden_iff_leading_dot.1 exFsHidden noMetaErr exDirD
    [⟨exDirD ++ [OsStr.utf8 ".config"], false, 0, 0, true⟩,
     ⟨exDirD ++ [OsStr.utf8 "config"], false, 0, 0, false⟩]
    (by decide) _ (by decide)

/-- C7 — confirmed. An `Ok` lister result enumerates exactly the immediate
entries of the directory, in enumeration order (so it is never a partial
collection: the first per-entry error aborts the whole call, discarding the
partially built vector), and a non-`Ok` outcome publishes nothing. -/
theorem C7_complete_or_fails_as_unit :
    (∀ fs mE d items, list_directory fs mE d = LResult.ok items →
      items.map FileSystemItem.path = (childrenOf fs d).map Prod.fst)
    ∧ (∀ r : LResult, (∀ items, r ≠ LResult.ok items) → pushed r = []) := by
  constructor
  · intro fs mE d items h
    unfold list_directory at h
    by_cases hd : isDirAt fs d = true
    · rw [if_pos hd] at h
      exact listEntries_ok_paths h
    · rw [if_neg hd] at h
      cases h
  · intro r h
    cases r with
    | ok items => exact absurd rfl (h items)
    | err => rfl
    | panic => rfl

/-- Witness for C7 on the concrete two-entry directory. -/
theorem C7_witness :
    list_directory exFsMixed noMetaErr exDirD =
      LResult.ok [⟨exDirD ++ [OsStr.utf8 "a"], false, 2, 9, false⟩,
                  ⟨exDirD ++ [OsStr.utf8 "sub"], true, 0, 5, false⟩]
    ∧ [⟨exDirD ++ [OsStr.utf8 "a"], false, 2, 9, false⟩,
       (⟨exDirD ++ [OsStr.utf8 "sub"], true, 0, 5, false⟩ : FileSystemItem)].map
        FileSystemItem.path = (childrenOf exFsMixed exDirD).map Prod.fst :=
  ⟨by decide,
   C7_complete_or_fails_as_unit.1 exFsMixed noMetaErr exDirD
     [⟨exDirD ++ [OsStr.utf8 "a"], false, 2, 9, false⟩,
      ⟨exDirD ++ [OsStr.utf8 "sub"], true, 0, 5, false⟩] (by decide)⟩

/-- C8 — confirmed. The `MoveItem` arm and the `RenameItem` arm are the same
function of the filesystem state: same `fs::rename` side effect, same success
condition, and on success the same parent-of-`to` listing published. (The only
textual difference in the source — `MoveItem` captures `to.parent()` before
the rename, `RenameItem` after — is immaterial because `to` is not mutated.) -/
theorem C8_move_equals_rename (fs : FS) (mE : FsPath → Bool) (src dst : FsPath) :
    moveItemArm fs mE src dst = renameItemArm fs mE src dst := rfl

/-- C9 — confirmed. A `ListDirectory` command mutates nothing, so two
consecutive `List` commands on the same untouched path publish identical
(hence in particular order-identical) Item Record collections. -/
theorem C9_list_idempotent (fs : FS) (mE : FsPath → Bool) (p : FsPath) :
    (listDirectoryArm fs mE p).1 = fs ∧
    (listDirectoryArm (listDirectoryArm fs mE p).1 mE p).2 =
      (listDirectoryArm fs mE p).2 :=
  ⟨rfl, rfl⟩

/-- C10 — confirmed. The lister is not total: on a directory holding an entry
whose name is not valid UTF-8 it panics (the `unwrap` on `to_str` fails); and
for every directory whose own entry names are all valid UTF-8 it never panics,
whatever names exist elsewhere in the filesystem. -/
theorem C10_lister_panics_on_non_utf8 :
    list_directory exFsBadName noMetaErr exDirD = LResult.panic
    ∧ (∀ fs mE d, dirNamesUtf8 fs d = true → list_directory fs mE d ≠ LResult.panic) := by
  constructor
  · decide
  · intro fs mE d h
    have hnames : ∀ e ∈ childrenOf fs d, ∃ s, e.1.getLast? = some (OsStr.utf8 s) := by
      intro e he
      have hu := (List.all_eq_true.mp h) e he
      cases hl : e.1.getLast? with
      | none => rw [hl] at hu; simp at hu
      | some os =>
        rw [hl] at hu
        cases os with
        | utf8 s => exact ⟨s, rfl⟩
        | nonUtf8 c => simp [OsStr.isUtf8] at hu
    unfold list_directory
    by_cases hd : isDirAt fs d = true
    · rw [if_pos hd]
      exact listEntries_ne_panic hnames
    · rw [if_neg hd]
      intro hc
      cases hc

/-- Witness for C10's no-panic half at the clean directory of a filesystem
that holds a non-UTF-8 name elsewhere. -/
theorem C10_witness :
    dirNamesUtf8 exFsMixedNames [OsStr.utf8 "clean"] = true
    ∧ list_directory exFsMixedNames noMetaErr [OsStr.utf8 "clean"] ≠ LResult.panic :=
  ⟨by decide,
   C10_lister_panics_on_non_utf8.2 exFsMixedNames noMetaErr [OsStr.utf8 "clean"] (by decide)⟩

/-- C6 — confirmed. Each cadence tick performs exactly one non-blocking
dequeue (taking the head of the queue when non-empty); an empty open channel
launches nothing and leaves the loop to sleep until the next tick; over a
quiet trace the loop terminates within `length + 1` ticks exactly when the
producer side is permanently closed, and never terminates while it is open. -/
theorem C6_dispatch_loop :
    (∀ (pending : List FileSystemEvent) (closed : Bool) ev rest,
      pending = ev :: rest → tickOnce pending closed = TickResult.running (some ev) rest)
    ∧ tickOnce [] false = TickResult.running none []
    ∧ (∀ pending, runTicks (pending.length + 1) pending true = none)
    ∧ (∀ pending n, runTicks n pending false ≠ none) := by
  refine ⟨?_, rfl, ?_, ?_⟩
  · intro pending closed ev rest h
    subst h
    rfl
  · intro pending
    induction pending with
    | nil => rfl
    | cons ev rest ih => simpa [runTicks, tickOnce] using ih
  · intro pending n
    induction n generalizing pending with
    | zero => simp [runTicks]
    | succ n ih =>
      cases pending with
      | nil => simpa [runTicks, tickOnce] using ih []
      | cons ev rest => simpa [runTicks, tickOnce] using ih rest

/-- Witness for C6: a tick on a one-command queue dequeues exactly it, and a
closed one-command channel terminates the loop within two ticks. -/
theorem C6_witness :
    tickOnce [FileSystemEvent.newWindow] true =
      TickResult.running (some FileSystemEvent.newWindow) []
    ∧ runTicks 2 [FileSystemEvent.newWindow] true = none :=
  ⟨C6_dispatch_loop.1 [FileSystemEvent.newWindow] true FileSystemEvent.newWindow [] rfl,
   C6_dispatch_loop.2.2.1 [FileSystemEvent.newWindow]⟩

/-- C5 — confirmed. `CreateFile(p)` creates an empty file at `p` leaving every
other path untouched, fails when the parent directory of `p` is missing, on
success publishes the listing of the parent of `p`; and concretely, run in the
empty directory `D` on `D/a.txt`, the pushed Result is exactly one record with
path `D/a.txt`, `is_directory = false`, `size = 0`. -/
theorem C5_create_file :
    (∀ fs p fs2, createFile fs p = some fs2 →
      nodeAt fs2 p = some (Node.file [] 0) ∧ ∀ q, q ≠ p → nodeAt fs2 q = nodeAt fs q)
    ∧ (∀ fs p, isDirAt fs p.dropLast = false → createFile fs p = none)
    ∧ (∀ fs mE p fs2 par, createFile fs p = some fs2 → parent? p = some par →
      createFileArm fs mE p = (fs2, pushed (list_directory fs2 mE par)))
    ∧ createFileArm exFsEmptyD noMetaErr exFileA =
        (exFsEmptyD ++ [(exFileA, Node.file [] 0)], [[⟨exFileA, false, 0, 0, false⟩]]) := by
  refine ⟨?_, ?_, ?_, by decide⟩
  · intro fs p fs2 h
    unfold createFile at h
    by_cases hp : p = []
    · rw [if_pos hp] at h
      cases h
    · rw [if_neg hp] at h
      by_cases hd : isDirAt fs p.dropLast = true
      · rw [if_pos hd] at h
        have hset : some (setNode fs p (Node.file [] 0)) = some fs2 := by
          cases hn : nodeAt fs p with
          | none => rw [hn] at h; exact h
          | some n =>
            cases n with
            | dir m => rw [hn] at h; cases h
            | file c m => rw [hn] at h; exact h
        have hfs2 : setNode fs p (Node.file [] 0) = fs2 := by injection hset
        subst hfs2
        exact ⟨nodeAt_setNode fs p (Node.file [] 0),
               fun q hq => nodeAt_setNode_ne fs p q (Node.file [] 0) hq⟩
      · rw [if_neg hd] at h
        cases h
  · intro fs p hd
    unfold createFile
    by_cases hp : p = []
    · rw [if_pos hp]
    · rw [if_neg hp, if_neg (by simp [hd])]
  · intro fs mE p fs2 par h hpar
    unfold createFileArm
    rw [h, hpar]

/-- Witness for C5's success clause at `D/a.txt` in the empty directory `D`. -/
theorem C5_witness :
    createFileArm exFsEmptyD noMetaErr exFileA =
      (exFsEmptyD ++ [(exFileA, Node.file [] 0)],
       pushed (list_directory (exFsEmptyD ++ [(exFileA, Node.file [] 0)]) noMetaErr exDirD)) :=
  C5_create_file.2.2.1 exFsEmptyD noMetaErr exFileA
    (exFsEmptyD ++ [(exFileA, Node.file [] 0)]) exDirD (by decide) (by decide)

/-- C1 — corrected. The claimed failure policy (a failed side effect publishes
nothing) holds for `CreateFile`, `CreateFolder`, `Rename` and `Move`, whose
arms guard the re-listing behind `is_ok()`; but `Delete` and `Copy` discard
the side-effect result (`let _ = ...`), so on failure they leave the
filesystem unchanged yet still list the parent and push the `Ok` listing onto
the Result Channel. -/
theorem C1_failure_policy_amended :
    (∀ fs mE p, createFile fs p = none → createFileArm fs mE p = (fs, []))
    ∧ (∀ fs mE p, createDir fs p = none → createFolderArm fs mE p = (fs, []))
    ∧ (∀ fs mE src dst, rename fs src dst = none → renameItemArm fs mE src dst = (fs, []))
    ∧ (∀ fs mE src dst, rename fs src dst = none → moveItemArm fs mE src dst = (fs, []))
    ∧ (∀ fs mE p par, parent? p = some par →
        (if isDirAt fs p then removeDirAll fs p else removeFile fs p) = none →
        deleteItemArm fs mE p = (fs, pushed (list_directory fs mE par)))
    ∧ (∀ fs mE src dst par, parent? dst = some par → isDirAt fs src = false →
        fileCopy fs src dst = none →
        copyItemArm fs mE src dst = (fs, pushed (list_directory fs mE par)))
    ∧ (∀ fs mE src dst par, parent? dst = some par → isDirAt fs src = true →
        dirCopy fs src par = none →
        copyItemArm fs mE src dst = (fs, pushed (list_directory fs mE par))) := by
  refine ⟨?_, ?_, ?_, ?_, ?_, ?_, ?_⟩
  · intro fs mE p h
    unfold createFileArm
    rw [h]
  · intro fs mE p h
    unfold createFolderArm
    rw [h]
  · intro fs mE src dst h
    unfold renameItemArm
    rw [h]
  · intro fs mE src dst h
    unfold moveItemArm
    rw [h]
  · intro fs mE p par hpar hfail
    unfold deleteItemArm
    by_cases hd : isDirAt fs p = true
    · rw [if_pos hd] at hfail
      simp only [hd, if_true, hfail, Option.getD_none, hpar]
    · rw [if_neg hd] at hfail
      simp only [hd, Bool.false_eq_true, if_false, hfail, Option.getD_none, hpar]
  · intro fs mE src dst par hpar hsrc hfail
    unfold copyItemArm
    rw [hpar]
    simp only [hsrc, Bool.false_eq_true, if_false, hfail, Option.getD_none]
  · intro fs mE src dst par hpar hsrc hfail
    unfold copyItemArm
    rw [hpar]
    simp only [hsrc, if_true, hfail, Option.getD_none]

/-- Counterexample to C1 as stated: deleting the missing path `D/z` fails
(`remove_file` returns `Err`), yet the executor still lists `D` and pushes a
snapshot — the Result Channel is not left unchanged. -/
theorem C1_counterexample :
    (if isDirAt exFsDel exMissingZ then removeDirAll exFsDel exMissingZ
     else removeFile exFsDel exMissingZ) = none
    ∧ (deleteItemArm exFsDel noMetaErr exMissingZ).2 =
        [[⟨exDirD ++ [OsStr.utf8 "a"], false, 0, 0, false⟩]] := by
  exact ⟨by decide, by decide⟩

/-- Witness for C1's amended clauses: a `CreateFile` under a missing parent
fails and pushes nothing. -/
theorem C1_witness :
    createFileArm exFsDel noMetaErr [OsStr.utf8 "nope", OsStr.utf8 "x"] = (exFsDel, []) :=
  C1_failure_policy_amended.1 exFsDel noMetaErr [OsStr.utf8 "nope", OsStr.utf8 "x"] (by decide)

/-- Counterexample to C2 as stated: copying the non-empty directory `/a/foo`
to `/b/bar` does NOT create the descendant under the destination root
`/b/bar` — `fs_extra::dir::copy` is called with `to.parent()` as destination,
so the subtree lands under `/b/foo` (the source's basename) instead. -/
theorem C2_counterexample :
    isDirAt exFsCopy [OsStr.utf8 "a", OsStr.utf8 "foo"] = true
    ∧ childrenOf exFsCopy [OsStr.utf8 "a", OsStr.utf8 "foo"] ≠ []
    ∧ nodeAt exFsCopy [OsStr.utf8 "a", OsStr.utf8 "foo", OsStr.utf8 "x"] =
        some (Node.file [7] 0)
    ∧ nodeAt (copyItemArm exFsCopy noMetaErr [OsStr.utf8 "a", OsStr.utf8 "foo"]
        [OsStr.utf8 "b", OsStr.utf8 "bar"]).1
        [OsStr.utf8 "b", OsStr.utf8 "bar", OsStr.utf8 "x"] = none
    ∧ nodeAt (copyItemArm exFsCopy noMetaErr [OsStr.utf8 "a", OsStr.utf8 "foo"]
        [OsStr.utf8 "b", OsStr.utf8 "bar"]).1
        [OsStr.utf8 "b", OsStr.utf8 "foo", OsStr.utf8 "x"] = some (Node.file [7] 0) :=
  ⟨by decide, by decide, by decide, by decide, by decide⟩

/-- C2 — corrected. As amended: provided `to`'s final name component equals
`from`'s (which the repository's only caller guarantees, since it builds `to`
as `current_path.join(from.file_name())`), a `Copy(from, to)` of a directory
duplicates every descendant entry of `from` under `to` with matching content
(overwriting existing destination entries), leaves the source subtree and its
listing unchanged, and publishes the listing of the parent of `to`. -/
theorem C2_copy_directory_amended (fs : FS) (src dst par : FsPath) (fs2 : FS)
    (out : List (List FileSystemItem))
    (hu : allUtf8 fs = true) (hud : dst.all OsStr.isUtf8 = true)
    (h1 : isDirAt fs src = true) (hsn : src ≠ [])
    (h2 : parent? dst = some par) (h3 : isDirAt fs par = true)
    (h4 : src.getLast? = dst.getLast?)
    (h5 : isPfx src par = false) (h6 : isPfx dst src = false) (h7 : src ≠ dst)
    (hrun : copyItemArm fs noMetaErr src dst = (fs2, out)) :
    (∀ s n, nodeAt fs (src ++ s) = some n → nodeAt fs2 (dst ++ s) = some n)
    ∧ (∀ q, nodeAt fs2 (src ++ q) = nodeAt fs (src ++ q))
    ∧ list_directory fs2 noMetaErr src = list_directory fs noMetaErr src
    ∧ ∃ items, list_directory fs2 noMetaErr par = LResult.ok items ∧ out = [items] := by
  have hdne : dst ≠ [] := by
    intro hc
    rw [hc] at h2
    simp [parent?] at h2
  have hpar : par = dst.dropLast := by
    unfold parent? at h2
    rw [if_neg hdne] at h2
    injection h2 with h2
    exact h2.symm
  have hlast : src.getLast? = some (src.getLast hsn) := List.getLast?_eq_getLast src hsn
  have hdl : dst.getLast? = some (src.getLast hsn) := by rw [← h4]; exact hlast
  have hdlast : dst.getLast? = some (dst.getLast hdne) := List.getLast?_eq_getLast dst hdne
  have hnm_eq : dst.getLast hdne = src.getLast hsn := by
    rw [hdl] at hdlast
    injection hdlast with hinj
    exact hinj.symm
  have hdec : dst = par ++ [src.getLast hsn] := by
    rw [hpar, ← hnm_eq]
    exact (List.dropLast_append_getLast hdne).symm
  have h6' : isPfx (par ++ [src.getLast hsn]) src = false := by rw [← hdec]; exact h6
  have h7' : src ≠ par ++ [src.getLast hsn] := by rw [← hdec]; exact h7
  have hdc : ∃ fsc, dirCopy fs src par = some fsc := by
    unfold dirCopy
    rw [hlast]
    simp [h1, h3, h5]
  obtain ⟨fsc, hdcopy⟩ := hdc
  obtain ⟨hcopied, hsrcUn, hchild, hparNode, hmem⟩ :=
    dirCopy_spec hlast h1 h3 h5 h6' h7' hdcopy
  have hrun2 : fsc = fs2 ∧ pushed (list_directory fsc noMetaErr par) = out := by
    unfold copyItemArm at hrun
    rw [h2] at hrun
    simp only [h1, if_true, hdcopy, Option.getD_some] at hrun
    injection hrun with ha hb
    exact ⟨ha, hb⟩
  obtain ⟨hfs2eq, houteq⟩ := hrun2
  subst hfs2eq
  subst houteq
  have hfs_utf8 : ∀ e ∈ fs, e.1.all OsStr.isUtf8 = true := fun e he => allUtf8_mem hu he
  have hud' := hud
  rw [hdec, List.all_append, Bool.and_eq_true] at hud'
  have hpar_utf8 : par.all OsStr.isUtf8 = true := hud'.1
  have hnm_utf8 : OsStr.isUtf8 (src.getLast hsn) = true := by
    have := hud'.2
    simpa using this
  have hfsc_utf8 : ∀ e ∈ fsc, e.1.all OsStr.isUtf8 = true := by
    intro e he
    rcases hmem e he with hin | ⟨e', he', hk⟩
    · exact hfs_utf8 e hin
    · rw [hk]
      have hdrop : (e'.1.drop src.length).all OsStr.isUtf8 = true := by
        apply List.all_eq_true.mpr
        intro x hx
        exact (List.all_eq_true.mp (hfs_utf8 e' he')) x (List.mem_of_mem_drop hx)
      simp [List.all_append, hpar_utf8, hnm_utf8, hdrop]
  refine ⟨?_, hsrcUn, ?_, ?_⟩
  · intro s n hn
    rw [hdec]
    exact hcopied s n hn
  · have hnSrc : nodeAt fsc src = nodeAt fs src := by
      have hq := hsrcUn []
      simpa using hq
    simp only [list_directory, isDirAt, hnSrc, hchild]
  · have hdirPar : isDirAt fsc par = true := by
      unfold isDirAt at h3 ⊢
      rw [hparNode]
      exact h3
    obtain ⟨items, hitems⟩ := list_directory_ok_of_utf8 hdirPar hfsc_utf8
    exact ⟨items, hitems, by rw [hitems]; rfl⟩

/-- Witness for C2's amended statement: copying `/a/foo` to `/b/foo` (matching
basenames) makes the descendant `x` appear under the destination with its
content. -/
theorem C2_witness :
    nodeAt (copyItemArm exFsCopy noMetaErr [OsStr.utf8 "a", OsStr.utf8 "foo"]
      [OsStr.utf8 "b", OsStr.utf8 "foo"]).1
      ([OsStr.utf8 "b", OsStr.utf8 "foo"] ++ [OsStr.utf8 "x"]) = some (Node.file [7] 0) :=
  (C2_copy_directory_amended exFsCopy
    [OsStr.utf8 "a", OsStr.utf8 "foo"] [OsStr.utf8 "b", OsStr.utf8 "foo"] [OsStr.utf8 "b"]
    (copyItemArm exFsCopy noMetaErr [OsStr.utf8 "a", OsStr.utf8 "foo"]
      [OsStr.utf8 "b", OsStr.utf8 "foo"]).1
    (copyItemArm exFsCopy noMetaErr [OsStr.utf8 "a", OsStr.utf8 "foo"]
      [OsStr.utf8 "b", OsStr.utf8 "foo"]).2
    (by decide) (by decide) (by decide) (by decide) (by decide) (by decide) (by decide)
    (by decide) (by decide) (by decide) rfl).1
    [OsStr.utf8 "x"] (Node.file [7] 0) (by decide)

end Happ
